import Mathlib

/-!
Verification of the SOFA event pipeline (normalize / merge / allocate laytime).

The definitions below are a shallow embedding of the frontend pipeline
implemented in the `enrichedData` memo of the application page
(`src/unnamed/part_004`), together with its shared helper
`formatMinutesToDuration`.  Timestamps are modelled by their parsed
instants, as integer minutes on a common timeline; a missing or empty
timestamp string is modelled as `none`.  Presentation-only fields of the
source (date-formatted strings such as `"MMM d, HH:mm"` and the
hour-offset pair `time`) are not modelled; every field the merged blocks
and the laytime calculation derive them from (the `subEvents` member
lists and the event instants) is carried faithfully.
-/

namespace SOFA

/-- JS `String.prototype.trim`: remove whitespace from both ends of a string. -/
def jsTrim (s : String) : String :=
  List.asString (((s.data.dropWhile Char.isWhitespace).reverse.dropWhile
    Char.isWhitespace).reverse)

/-- The shared duration formatter of the pipeline (`formatMinutesToDuration`,
`src/unnamed/part_004` lines 67 to 80): non-positive totals render as `"0m"`,
otherwise the total is decomposed into days, hours and minutes, the
non-zero components are appended with a trailing blank each (minutes are
appended also when nothing was appended before), and the result is trimmed.
`Math.round(remainingMinutes % 60)` is the identity here because the
pipeline only ever passes integral minute counts. -/
def formatMinutesToDuration (totalMinutes : Int) : String :=
  if totalMinutes ≤ 0 then "0m"
  else
    let n := totalMinutes.toNat
    let days := n / 1440
    let remainingMinutes := n % 1440
    let hours := remainingMinutes / 60
    let minutes := remainingMinutes % 60
    let r1 := if days > 0 then Nat.repr days ++ "d " else ""
    let r2 := if hours > 0 then r1 ++ Nat.repr hours ++ "h " else r1
    let r3 := if minutes > 0 ∨ r2 = "" then r2 ++ Nat.repr minutes ++ "m" else r2
    jsTrim r3

/-- Join a list of rendered duration units with single blanks, rendering the
empty list as `"0m"`. Helper for `specFormatDuration`. -/
def joinUnits : List String → String
  | [] => "0m"
  | [u] => u
  | u :: rest => u ++ " " ++ joinUnits rest

/-- Modelled from the spec wording for the duration formatting utility: a
signed span of minutes is converted into a compact string using the largest
applicable units, days then hours then minutes, omitting zero-valued units,
always showing at least one unit, a non-positive span rendering as `"0m"`.
Stated side by side with `formatMinutesToDuration` for the refinement claim. -/
def specFormatDuration (totalMinutes : Int) : String :=
  if totalMinutes ≤ 0 then "0m"
  else
    let n := totalMinutes.toNat
    let days := n / 1440
    let hours := n % 1440 / 60
    let minutes := n % 1440 % 60
    joinUnits
      ((if days > 0 then [Nat.repr days ++ "d"] else []) ++
       (if hours > 0 then [Nat.repr hours ++ "h"] else []) ++
       (if minutes > 0 then [Nat.repr minutes ++ "m"] else []))

/-- A raw extracted event as handed to the frontend pipeline
(`ExtractPortOperationEventsOutput.events` element). `startTime` and
`endTime` are the parsed instants of the timestamp strings; `none` models a
missing or empty (falsy) timestamp string. -/
structure RawEvent where
  event : String
  category : String
  startTime : Option Int
  endTime : Option Int
  duration : String
  status : String
deriving DecidableEq

/-- An event that passed the `e.startTime && e.endTime` filter; both instants
are present, so the downstream non-null assertions always succeed. -/
structure VEvent where
  event : String
  category : String
  startTime : Int
  endTime : Int
  duration : String
  status : String
deriving DecidableEq

/-- `extractedData.events.filter(e => e.startTime && e.endTime)` (line 91):
events missing either timestamp are silently dropped; the survivors are
repackaged with both instants present. -/
def validEvents (es : List RawEvent) : List VEvent :=
  es.filterMap fun e =>
    match e.startTime, e.endTime with
    | some s, some t => some ⟨e.event, e.category, s, t, e.duration, e.status⟩
    | _, _ => none

/-- Comparison relation of the sort at line 95: ascending by start instant. -/
def startLE (a b : VEvent) : Prop := a.startTime ≤ b.startTime

instance : DecidableRel startLE :=
  fun a b => inferInstanceAs (Decidable (a.startTime ≤ b.startTime))

instance : IsTotal VEvent startLE :=
  ⟨fun a b => Int.le_total a.startTime b.startTime⟩

instance : IsTrans VEvent startLE :=
  ⟨fun _ _ _ h1 h2 => le_trans h1 h2⟩

/-- `[...validEvents].sort((a, b) => parseISO(a.startTime).getTime() -
parseISO(b.startTime).getTime())` (line 95). JS `Array.prototype.sort` is a
stable sort and a stable sort is observationally determined by its
comparator, so it is modelled by stable insertion sort on `startLE`. -/
def sortEvents (ve : List VEvent) : List VEvent :=
  List.insertionSort startLE ve

/-- `date-fns` `max` over a list of instants; the pipeline only applies it to
non-empty member lists, so the value on `[]` is never observed. -/
def listMax : List Int → Int
  | [] => 0
  | x :: xs => xs.foldl max x

/-- `date-fns` `min` over a list of instants; same remark as for `listMax`. -/
def listMin : List Int → Int
  | [] => 0
  | x :: xs => xs.foldl min x

/-- `max(currentBlock.subEvents.map(e => parseISO(e.endTime)))` (lines 117
and 146): running maximum end instant of the members of a block. -/
def blockEnd (members : List VEvent) : Int :=
  listMax (members.map (·.endTime))

/-- `min(block.subEvents.map(e => parseISO(e.startTime)))` (line 145):
minimum start instant of the members of a block. -/
def blockStart (members : List VEvent) : Int :=
  listMin (members.map (·.startTime))

/-- The left-to-right sweep of lines 98 to 142. The state is the current
block (its `subEvents` list, `none` before the first event) and the
`mergedBlocks` accumulator. An event whose start is strictly before the
running maximum end of the current block is pushed onto it, otherwise the
current block is closed and a fresh block is opened with this event. -/
def mergeGo : List VEvent → Option (List VEvent) → List (List VEvent) → List (List VEvent)
  | [], none, acc => acc
  | [], some cur, acc => acc ++ [cur]
  | e :: rest, none, acc => mergeGo rest (some [e]) acc
  | e :: rest, some cur, acc =>
    if e.startTime < blockEnd cur then mergeGo rest (some (cur ++ [e])) acc
    else mergeGo rest (some [e]) (acc ++ [cur])

/-- The sweep applied to an already sorted event sequence. -/
def mergeRun (es : List VEvent) : List (List VEvent) :=
  mergeGo es none []

/-- `mergedBlocks` of the pipeline: the sweep over the sorted valid events. -/
def mergedBlocks (ve : List VEvent) : List (List VEvent) :=
  mergeRun (sortEvents ve)

/-- Structural recursion companion of `mergeGo` used by the proofs: it
returns the blocks the sweep will emit from a current block `cur` and the
remaining events, without threading the accumulator. -/
def mergeAux : List VEvent → List VEvent → List (List VEvent)
  | cur, [] => [cur]
  | cur, e :: rest =>
    if e.startTime < blockEnd cur then mergeAux (cur ++ [e]) rest
    else cur :: mergeAux [e] rest

/-- A merged timeline block after post-processing (lines 144 to 163).
The source block also carries date-formatted display strings and an
hour-offset pair; those presentation fields are not modelled. -/
structure TimelineBlock where
  name : String
  category : String
  duration : String
  subEvents : List VEvent
deriving DecidableEq

/-- The callback of the `reduce` at lines 150 to 155: keep the event with the
strictly larger minute duration, the earlier one on ties. The null guards of
the callback cannot fire because every member has both instants. -/
def longerEvent (longest current : VEvent) : VEvent :=
  if current.endTime - current.startTime > longest.endTime - longest.startTime
  then current else longest

/-- Post-processing of one closed block (lines 144 to 163): representative
category by the longest member (`reduce` without an initial value, which
throws on an empty array, modelled as `Except.error`), display name by the
single/multi member rule, duration formatted from the block span. -/
def postProcessBlock : List VEvent → Except String TimelineBlock
  | [] => .error "TypeError: reduce of empty array with no initial value"
  | m :: rest =>
    let members := m :: rest
    let mainCategory := (rest.foldl longerEvent m).category
    let totalDurationMinutes := blockEnd members - blockStart members
    let name :=
      if members.length > 1 then Nat.repr members.length ++ " Overlapping Events"
      else m.event
    .ok ⟨name, mainCategory, formatMinutesToDuration totalDurationMinutes, members⟩

/-- `timelineBlocks` of the pipeline: post-process every merged block in
order; a JS exception thrown inside the `map` callback aborts the whole map,
which is what the `Except` threading models. -/
def timelineBlocksOf : List (List VEvent) → Except String (List TimelineBlock)
  | [] => .ok []
  | b :: bs => do
    let t ← postProcessBlock b
    let ts ← timelineBlocksOf bs
    .ok (t :: ts)

/-- A laytime breakdown row (`LaytimeEvent` of the source; the timestamps
are modelled by their instants). -/
structure LaytimeEvent where
  event : String
  startTime : Int
  endTime : Int
  duration : String
  isCounted : Bool
  reason : String
deriving DecidableEq

/-- The laytime summary (`LaytimeCalculation` of the source). The source
interface declares `demurrageCost` as optional; it is modelled as an
`Option` so that its absence from the constructed object is observable. -/
structure LaytimeCalculation where
  totalLaytime : String
  allowedLaytime : String
  timeSaved : String
  demurrage : String
  demurrageCost : Option String
  laytimeEvents : List LaytimeEvent
deriving DecidableEq

/-- The category classification of lines 168 to 177: counted flag and reason
string as a function of the category string. -/
def classify (category : String) : Bool × String :=
  if category = "Cargo Operations" then
    (true, "Cargo operations count towards laytime.")
  else if category = "Delays" ∨ category = "Stoppages" then
    (false, "Delays and stoppages generally do not count.")
  else
    (false, "Not counted towards laytime.")

/-- One row of the `validEvents.map` at lines 167 to 192. -/
def mkLaytimeEvent (e : VEvent) : LaytimeEvent :=
  ⟨e.event, e.startTime, e.endTime,
   formatMinutesToDuration (e.endTime - e.startTime),
   (classify e.category).1, (classify e.category).2⟩

/-- The running total accumulated during the same map: durations of counted
events are added as they are, without clamping or de-duplication (lines 179
to 182). -/
def totalLaytimeMinutes (ve : List VEvent) : Int :=
  ve.foldl
    (fun acc e =>
      if (classify e.category).1 then acc + (e.endTime - e.startTime) else acc)
    0

/-- The laytime calculation of lines 166 to 204: a fixed allowance of 3 days,
time saved and demurrage from the sign of the difference, and no
`demurrageCost` field in the constructed object. -/
def laytimeCalculationOf (ve : List VEvent) : LaytimeCalculation :=
  let totalMinutes := totalLaytimeMinutes ve
  let allowedLaytimeMinutes : Int := 3 * 24 * 60
  let difference := allowedLaytimeMinutes - totalMinutes
  { totalLaytime := formatMinutesToDuration totalMinutes
    allowedLaytime := "3 days"
    timeSaved := if difference > 0 then formatMinutesToDuration difference else "0m"
    demurrage := if difference < 0 then formatMinutesToDuration (abs difference) else "0m"
    demurrageCost := none
    laytimeEvents := ve.map mkLaytimeEvent }

/-- The summary block of lines 206 to 211. The first and last element
accesses on `sortedEvents` model the JS undefined-property `TypeError` as an
`Except.error` when the list is empty. -/
def eventsSummaryOf (sorted : List VEvent) (laytimeEvents : List LaytimeEvent)
    (valid : List VEvent) : Except String String :=
  match sorted.getLast?, sorted.head? with
  | some lastEv, some firstEv =>
    let totalTimeInPortMinutes := lastEv.endTime - firstEv.startTime
    let cargoOpsMinutes :=
      ((laytimeEvents.filter (·.isCounted)).map
        (fun e => e.endTime - e.startTime)).foldl (· + ·) 0
    let delayMinutes :=
      ((valid.filter
          (fun e => e.category = "Delays" ∨ e.category = "Stoppages")).map
        (fun e => e.endTime - e.startTime)).foldl (· + ·) 0
    .ok ("*   **Total time in port:** " ++
      formatMinutesToDuration totalTimeInPortMinutes ++
      "\n*   **Total time on cargo operations:** " ++
      formatMinutesToDuration cargoOpsMinutes ++
      "\n*   **Total time lost to delays/stoppages:** " ++
      formatMinutesToDuration delayMinutes)
  | _, _ => .error "TypeError: cannot read properties of undefined"

/-- The enriched analysis object assembled at line 213 (the fields of the
extraction output that are merely passed through are not modelled). -/
structure EnrichedData where
  timelineBlocks : List TimelineBlock
  laytimeCalculation : LaytimeCalculation
  eventsSummary : String
deriving DecidableEq

/-- The `enrichedData` memo (lines 86 to 214): `none` models the `null`
returned for an absent or empty event list and for an all-invalid event
list; `Except.error` models a JS exception escaping the pipeline. -/
def enrichedData (events : List RawEvent) : Except String (Option EnrichedData) :=
  if events.length = 0 then .ok none
  else
    let valid := validEvents events
    if valid.length = 0 then .ok none
    else do
      let sorted := sortEvents valid
      let blocks := mergeRun sorted
      let tBlocks ← timelineBlocksOf blocks
      let laytime := laytimeCalculationOf valid
      let summary ← eventsSummaryOf sorted laytime.laytimeEvents valid
      .ok (some ⟨tBlocks, laytime, summary⟩)

/-- A member list covers its whole span: every instant between the minimum
start and the maximum end of the members lies inside some member. Blocks
produced by the sweep satisfy this, which is what makes the block span equal
to the union of the member spans. -/
def connBlock (b : List VEvent) : Prop :=
  ∀ t : Int, blockStart b ≤ t → t ≤ blockEnd b →
    ∃ m ∈ b, m.startTime ≤ t ∧ t ≤ m.endTime

/-- Scenario input: event spanning 09:00 to 11:00 (minutes of day). -/
def ev0900to1100 : VEvent :=
  ⟨"Loading hold 1", "Cargo Operations", 540, 660, "2h", "Completed"⟩

/-- Scenario input: event spanning 10:00 to 12:00 (minutes of day). -/
def ev1000to1200 : VEvent :=
  ⟨"Loading hold 2", "Cargo Operations", 600, 720, "2h", "Completed"⟩

/-- Counterexample input: an event with a start but no end. -/
def rawNoEnd : RawEvent :=
  ⟨"NOR Tendered", "Other", some 0, none, "", "Completed"⟩

/-- Counterexample input: a complete event following `rawNoEnd`. -/
def rawComplete : RawEvent :=
  ⟨"Berthing", "Arrival", some 120, some 180, "1h", "Completed"⟩

/-- Counterexample input: an event whose end precedes its start. -/
def rawInverted : RawEvent :=
  ⟨"Inverted", "Cargo Operations", some 100, some 40, "", "Completed"⟩

/-- Counterexample input: a Delays event of one hour. -/
def evDelay : VEvent :=
  ⟨"Rain stoppage", "Delays", 0, 60, "1h", "Delayed"⟩

/-- Scenario E input: a counted event of exactly four days. -/
def evFourDays : VEvent :=
  ⟨"Discharging", "Cargo Operations", 0, 5760, "4d", "Completed"⟩

/-! Character-level facts about `Nat.repr`, needed to reason about the
string assembly and the final trim of `formatMinutesToDuration`. -/

theorem digitChar_ws_false_and_ne_dash (n : Nat) :
    (Nat.digitChar n).isWhitespace = false ∧ Nat.digitChar n ≠ '-' := by
  by_cases h : n < 16
  · interval_cases n <;> decide
  · have hstar : Nat.digitChar n = '*' := by
      unfold Nat.digitChar
      repeat rw [if_neg (by omega)]
    rw [hstar]
    decide

theorem toDigitsCore_eq_append (b : Nat) :
    ∀ (fuel n : Nat) (acc : List Char),
      ∃ l, Nat.toDigitsCore b fuel n acc = l ++ acc := by
  intro fuel
  induction fuel with
  | zero => intro n acc; exact ⟨[], rfl⟩
  | succ fuel ih =>
    intro n acc
    simp only [Nat.toDigitsCore]
    split
    · exact ⟨[Nat.digitChar (n % b)], rfl⟩
    · obtain ⟨l, hl⟩ := ih (n / b) (Nat.digitChar (n % b) :: acc)
      exact ⟨l ++ [Nat.digitChar (n % b)], by simp [hl]⟩

theorem mem_toDigitsCore (b : Nat) :
    ∀ (fuel n : Nat) (acc : List Char) (c : Char),
      c ∈ Nat.toDigitsCore b fuel n acc → c ∈ acc ∨ ∃ k, c = Nat.digitChar k := by
  intro fuel
  induction fuel with
  | zero => intro n acc c hc; exact Or.inl hc
  | succ fuel ih =>
    intro n acc c hc
    simp only [Nat.toDigitsCore] at hc
    by_cases hz : n / b = 0
    · rw [if_pos hz] at hc
      rcases List.mem_cons.1 hc with hc2 | hc2
      · exact Or.inr ⟨n % b, hc2⟩
      · exact Or.inl hc2
    · rw [if_neg hz] at hc
      rcases ih (n / b) (Nat.digitChar (n % b) :: acc) c hc with hc3 | hc3
      · rcases List.mem_cons.1 hc3 with hc4 | hc4
        · exact Or.inr ⟨n % b, hc4⟩
        · exact Or.inl hc4
      · exact Or.inr hc3

theorem repr_data_ne_nil (n : Nat) : (Nat.repr n).data ≠ [] := by
  show (Nat.toDigits 10 n).asString.data ≠ []
  unfold Nat.toDigits
  simp only [Nat.toDigitsCore]
  split
  · simp [List.asString]
  · obtain ⟨l, hl⟩ := toDigitsCore_eq_append 10 n (n / 10) [Nat.digitChar (n % 10)]
    simp [List.asString, hl]

theorem repr_data_ws_false (n : Nat) :
    ∀ c ∈ (Nat.repr n).data, c.isWhitespace = false := by
  intro c hc
  have hc' : c ∈ Nat.toDigits 10 n := hc
  rcases mem_toDigitsCore 10 (n + 1) n [] c hc' with h | ⟨k, hk⟩
  · exact absurd h (List.not_mem_nil c)
  · rw [hk]; exact (digitChar_ws_false_and_ne_dash k).1

theorem repr_data_ne_dash (n : Nat) :
    ∀ c ∈ (Nat.repr n).data, c ≠ '-' := by
  intro c hc
  have hc' : c ∈ Nat.toDigits 10 n := hc
  rcases mem_toDigitsCore 10 (n + 1) n [] c hc' with h | ⟨k, hk⟩
  · exact absurd h (List.not_mem_nil c)
  · rw [hk]; exact (digitChar_ws_false_and_ne_dash k).2

/-! Facts about `jsTrim`. -/

theorem dropWhile_eq_self_of_head (p : Char → Bool) (l : List Char)
    (h : ∀ c ∈ l.head?, p c = false) : l.dropWhile p = l := by
  cases l with
  | nil => rfl
  | cons x xs =>
    have hx : p x = false := h x (by simp)
    simp [List.dropWhile_cons, hx]

theorem jsTrim_eq_self (s : String)
    (h1 : ∀ c ∈ s.data.head?, c.isWhitespace = false)
    (h2 : ∀ c ∈ s.data.getLast?, c.isWhitespace = false) : jsTrim s = s := by
  unfold jsTrim
  rw [dropWhile_eq_self_of_head _ _ h1]
  rw [dropWhile_eq_self_of_head _ _ (by rw [List.head?_reverse]; exact h2)]
  rw [List.reverse_reverse]
  exact String.ext rfl

theorem jsTrim_drop_last_space (s : String) (l : List Char)
    (hs : s.data = l ++ [' '])
    (h1 : ∀ c ∈ l.head?, c.isWhitespace = false)
    (h2 : ∀ c ∈ l.getLast?, c.isWhitespace = false) :
    jsTrim s = List.asString l := by
  unfold jsTrim
  rw [hs]
  cases l with
  | nil => simp
  | cons x xs =>
    have hx : x.isWhitespace = false := h1 x (by simp)
    rw [List.cons_append, List.dropWhile_cons]
    simp only [hx, Bool.false_eq_true, if_false]
    rw [show (x :: (xs ++ [' '])).reverse = ' ' :: (x :: xs).reverse by simp]
    rw [List.dropWhile_cons]
    simp only [show (' ').isWhitespace = true from rfl, if_true]
    rw [dropWhile_eq_self_of_head _ _ (by rw [List.head?_reverse]; exact h2)]
    rw [List.reverse_reverse]

theorem mem_of_mem_jsTrim (s : String) (c : Char)
    (h : c ∈ (jsTrim s).data) : c ∈ s.data := by
  unfold jsTrim at h
  have h' : c ∈ ((s.data.dropWhile Char.isWhitespace).reverse.dropWhile
      Char.isWhitespace).reverse := h
  rw [List.mem_reverse] at h'
  have h2 := (List.dropWhile_sublist (l := (s.data.dropWhile Char.isWhitespace).reverse)
    Char.isWhitespace).mem h'
  rw [List.mem_reverse] at h2
  exact (List.dropWhile_sublist Char.isWhitespace).mem h2

theorem head_ws_false_repr (n : Nat) :
    ∀ c ∈ (Nat.repr n).data.head?, c.isWhitespace = false :=
  fun c hc => repr_data_ws_false n c (List.mem_of_mem_head? hc)

theorem head_ws_false_append (s t : String)
    (hs : ∀ c ∈ s.data.head?, c.isWhitespace = false) (hne : s.data ≠ []) :
    ∀ c ∈ (s ++ t).data.head?, c.isWhitespace = false := by
  intro c hc
  rw [String.data_append, List.head?_append] at hc
  cases h : s.data.head? with
  | none => exact absurd (List.head?_eq_none_iff.1 h) hne
  | some x =>
    rw [h] at hc
    simp only [Option.or, Option.mem_def, Option.some.injEq] at hc
    subst hc
    exact hs x (by rw [h]; exact rfl)

theorem data_append_ne_nil (s t : String) (h : s.data ≠ []) : (s ++ t).data ≠ [] := by
  rw [String.data_append]
  exact fun hc => h (List.append_eq_nil.1 hc).1

theorem str_ne_empty (s : String) (h : s.data ≠ []) : s ≠ "" :=
  fun he => h (by rw [he])

theorem asString_data (s : String) : List.asString s.data = s :=
  String.ext rfl

theorem last_ws_false_append_m (x : String) :
    ∀ c ∈ (x ++ "m").data.getLast?, c.isWhitespace = false := by
  intro c hc
  rw [String.data_append, show ("m" : String).data = ['m'] from rfl,
    List.getLast?_concat] at hc
  simp only [Option.mem_def, Option.some.injEq] at hc
  subst hc
  rfl

theorem last_h_getLast (x : String) : (x ++ "h").data.getLast? = some 'h' := by
  rw [String.data_append, show ("h" : String).data = ['h'] from rfl,
    List.getLast?_concat]

theorem last_d_getLast (x : String) : (x ++ "d").data.getLast? = some 'd' := by
  rw [String.data_append, show ("d" : String).data = ['d'] from rfl,
    List.getLast?_concat]

theorem format_core (d h mm : Nat) :
    jsTrim
      ((fun r2 => if mm > 0 ∨ r2 = "" then r2 ++ Nat.repr mm ++ "m" else r2)
        ((fun r1 => if h > 0 then r1 ++ Nat.repr h ++ "h " else r1)
          (if d > 0 then Nat.repr d ++ "d " else ""))) =
    joinUnits
      ((if d > 0 then [Nat.repr d ++ "d"] else []) ++
       (if h > 0 then [Nat.repr h ++ "h"] else []) ++
       (if mm > 0 then [Nat.repr mm ++ "m"] else [])) := by
  have hdd : ("d " : String).data = ['d', ' '] := rfl
  have hhd : ("h " : String).data = ['h', ' '] := rfl
  have hmd : ("m" : String).data = ['m'] := rfl
  have hsp : (" " : String).data = [' '] := rfl
  have hEmp : ∀ s : String, "" ++ s = s := fun s => String.ext rfl
  have HWstep : ∀ (s t : String),
      (∀ c ∈ s.data.head?, c.isWhitespace = false) → s.data ≠ [] →
      (∀ c ∈ (s ++ t).data.head?, c.isWhitespace = false) ∧ (s ++ t).data ≠ [] :=
    fun s t h1 h2 => ⟨head_ws_false_append s t h1 h2, data_append_ne_nil s t h2⟩
  have lastH : ∀ x : String, ∀ c ∈ (x ++ "h").data.getLast?, c.isWhitespace = false := by
    intro x c hc
    rw [last_h_getLast] at hc
    simp only [Option.mem_def, Option.some.injEq] at hc
    subst hc
    rfl
  have lastD : ∀ x : String, ∀ c ∈ (x ++ "d").data.getLast?, c.isWhitespace = false := by
    intro x c hc
    rw [last_d_getLast] at hc
    simp only [Option.mem_def, Option.some.injEq] at hc
    subst hc
    rfl
  by_cases hd : d > 0 <;> by_cases hh : h > 0 <;> by_cases hm : mm > 0 <;>
    simp only [hd, hh, hm, true_or, false_or, if_true, if_false, ite_true, ite_false]
  -- d>0 h>0 mm>0
  · have W0 := And.intro (head_ws_false_repr d) (repr_data_ne_nil d)
    have W1 := HWstep _ "d " W0.1 W0.2
    have W2 := HWstep _ (Nat.repr h) W1.1 W1.2
    have W3 := HWstep _ "h " W2.1 W2.2
    have W4 := HWstep _ (Nat.repr mm) W3.1 W3.2
    have W5 := HWstep _ "m" W4.1 W4.2
    rw [jsTrim_eq_self _ W5.1 (last_ws_false_append_m _)]
    apply String.ext
    simp [String.data_append, joinUnits, hdd, hhd, hmd, hsp]
  -- d>0 h>0 mm=0
  · have W0 := And.intro (head_ws_false_repr d) (repr_data_ne_nil d)
    have W1 := HWstep _ "d " W0.1 W0.2
    have W2 := HWstep _ (Nat.repr h) W1.1 W1.2
    have W3 := HWstep _ "h " W2.1 W2.2
    have W2h := HWstep _ "h" W2.1 W2.2
    rw [if_neg (fun habs => str_ne_empty _ W3.2 habs)]
    rw [jsTrim_drop_last_space _ ((Nat.repr d ++ "d " ++ Nat.repr h ++ "h").data)
      (by simp [String.data_append, hhd, show ("h" : String).data = ['h'] from rfl])
      W2h.1 (lastH _), asString_data]
    apply String.ext
    simp [String.data_append, joinUnits, hdd, hhd, hsp,
      show ("h" : String).data = ['h'] from rfl]
  -- d>0 h=0 mm>0
  · have W0 := And.intro (head_ws_false_repr d) (repr_data_ne_nil d)
    have W1 := HWstep _ "d " W0.1 W0.2
    have W4 := HWstep _ (Nat.repr mm) W1.1 W1.2
    have W5 := HWstep _ "m" W4.1 W4.2
    rw [jsTrim_eq_self _ W5.1 (last_ws_false_append_m _)]
    apply String.ext
    simp [String.data_append, joinUnits, hdd, hmd, hsp]
  -- d>0 h=0 mm=0
  · have W0 := And.intro (head_ws_false_repr d) (repr_data_ne_nil d)
    have W1 := HWstep _ "d " W0.1 W0.2
    have W1d := HWstep _ "d" W0.1 W0.2
    rw [if_neg (fun habs => str_ne_empty _ W1.2 habs)]
    rw [jsTrim_drop_last_space _ ((Nat.repr d ++ "d").data)
      (by simp [String.data_append, hdd, show ("d" : String).data = ['d'] from rfl])
      W1d.1 (lastD _), asString_data]
    apply String.ext
    simp [String.data_append, joinUnits,
      show ("d" : String).data = ['d'] from rfl]
  -- d=0 h>0 mm>0
  · rw [hEmp]
    have W0 := And.intro (head_ws_false_repr h) (repr_data_ne_nil h)
    have W3 := HWstep _ "h " W0.1 W0.2
    have W4 := HWstep _ (Nat.repr mm) W3.1 W3.2
    have W5 := HWstep _ "m" W4.1 W4.2
    rw [jsTrim_eq_self _ W5.1 (last_ws_false_append_m _)]
    apply String.ext
    simp [String.data_append, joinUnits, hhd, hmd, hsp]
  -- d=0 h>0 mm=0
  · rw [hEmp]
    have W0 := And.intro (head_ws_false_repr h) (repr_data_ne_nil h)
    have W3 := HWstep _ "h " W0.1 W0.2
    have W0h := HWstep _ "h" W0.1 W0.2
    rw [if_neg (fun habs => str_ne_empty _ W3.2 habs)]
    rw [jsTrim_drop_last_space _ ((Nat.repr h ++ "h").data)
      (by simp [String.data_append, hhd, show ("h" : String).data = ['h'] from rfl])
      W0h.1 (lastH _), asString_data]
    apply String.ext
    simp [String.data_append, joinUnits,
      show ("h" : String).data = ['h'] from rfl]
  -- d=0 h=0 mm>0
  · rw [hEmp]
    have W0 := And.intro (head_ws_false_repr mm) (repr_data_ne_nil mm)
    have W5 := HWstep _ "m" W0.1 W0.2
    rw [jsTrim_eq_self _ W5.1 (last_ws_false_append_m _)]
    simp [joinUnits]
  -- d=0 h=0 mm=0
  · have hmz : mm = 0 := by omega
    subst hmz
    rw [hEmp]
    show jsTrim ("0" ++ "m") = joinUnits []
    rw [show ("0" ++ "m" : String) = "0m" from String.ext rfl]
    rw [jsTrim_eq_self "0m" (by intro c hc; simp at hc; subst hc; rfl)
      (by intro c hc; simp [List.getLast?] at hc; subst hc; rfl)]
    rfl



theorem format_eq_spec (m : Int) : formatMinutesToDuration m = specFormatDuration m := by
  unfold formatMinutesToDuration specFormatDuration
  split
  · rfl
  · exact format_core (m.toNat / 1440) (m.toNat % 1440 / 60) (m.toNat % 1440 % 60)

theorem format_nonpos (m : Int) (h : m ≤ 0) : formatMinutesToDuration m = "0m" := by
  unfold formatMinutesToDuration
  rw [if_pos h]

theorem no_dash_core (dd hh2 mm2 : Nat) :
    '-' ∉ ((fun r2 => if mm2 > 0 ∨ r2 = "" then r2 ++ Nat.repr mm2 ++ "m" else r2)
        ((fun r1 => if hh2 > 0 then r1 ++ Nat.repr hh2 ++ "h " else r1)
          (if dd > 0 then Nat.repr dd ++ "d " else ""))).data := by
  have h1 : '-' ∉ (if dd > 0 then Nat.repr dd ++ "d " else "").data := by
    split
    · rw [String.data_append]
      intro hx
      rcases List.mem_append.1 hx with hx | hx
      · exact repr_data_ne_dash _ _ hx rfl
      · rw [show ("d " : String).data = ['d', ' '] from rfl] at hx
        simp at hx
    · intro hx
      simp [show ("" : String).data = [] from rfl] at hx
  have h2 : '-' ∉ (if hh2 > 0
      then (if dd > 0 then Nat.repr dd ++ "d " else "") ++ Nat.repr hh2 ++ "h "
      else (if dd > 0 then Nat.repr dd ++ "d " else "")).data := by
    split
    · rw [String.data_append, String.data_append]
      intro hx
      rcases List.mem_append.1 hx with hx | hx
      · rcases List.mem_append.1 hx with hx | hx
        · exact h1 hx
        · exact repr_data_ne_dash _ _ hx rfl
      · rw [show ("h " : String).data = ['h', ' '] from rfl] at hx
        simp at hx
    · exact h1
  show '-' ∉ (if mm2 > 0 ∨ (if hh2 > 0
      then (if dd > 0 then Nat.repr dd ++ "d " else "") ++ Nat.repr hh2 ++ "h "
      else (if dd > 0 then Nat.repr dd ++ "d " else "")) = ""
    then (if hh2 > 0
      then (if dd > 0 then Nat.repr dd ++ "d " else "") ++ Nat.repr hh2 ++ "h "
      else (if dd > 0 then Nat.repr dd ++ "d " else "")) ++ Nat.repr mm2 ++ "m"
    else (if hh2 > 0
      then (if dd > 0 then Nat.repr dd ++ "d " else "") ++ Nat.repr hh2 ++ "h "
      else (if dd > 0 then Nat.repr dd ++ "d " else ""))).data
  by_cases hcnd : mm2 > 0 ∨ (if hh2 > 0
      then (if dd > 0 then Nat.repr dd ++ "d " else "") ++ Nat.repr hh2 ++ "h "
      else (if dd > 0 then Nat.repr dd ++ "d " else "")) = ""
  · rw [if_pos hcnd, String.data_append, String.data_append]
    intro hx
    rcases List.mem_append.1 hx with hx | hx
    · rcases List.mem_append.1 hx with hx | hx
      · exact h2 hx
      · exact repr_data_ne_dash _ _ hx rfl
    · rw [show ("m" : String).data = ['m'] from rfl] at hx
      simp at hx
  · rw [if_neg hcnd]
    exact h2

theorem format_no_dash (m : Int) : '-' ∉ (formatMinutesToDuration m).data := by
  unfold formatMinutesToDuration
  split
  · decide
  · intro hc
    exact no_dash_core (m.toNat / 1440) (m.toNat % 1440 / 60) (m.toNat % 1440 % 60)
      (mem_of_mem_jsTrim _ '-' hc)


/-! Span arithmetic for member lists. -/

theorem le_foldl_max (xs : List Int) (a : Int) :
    a ≤ xs.foldl max a ∧ ∀ x ∈ xs, x ≤ xs.foldl max a := by
  induction xs generalizing a with
  | nil => simp
  | cons y ys ih =>
    refine ⟨le_trans (le_max_left a y) (ih (max a y)).1, ?_⟩
    intro x hx
    rcases List.mem_cons.1 hx with hx | hx
    · subst hx
      exact le_trans (le_max_right a x) (ih (max a x)).1
    · exact (ih (max a y)).2 x hx

theorem foldl_min_le (xs : List Int) (a : Int) :
    xs.foldl min a ≤ a ∧ ∀ x ∈ xs, xs.foldl min a ≤ x := by
  induction xs generalizing a with
  | nil => simp
  | cons y ys ih =>
    refine ⟨le_trans (ih (min a y)).1 (min_le_left a y), ?_⟩
    intro x hx
    rcases List.mem_cons.1 hx with hx | hx
    · subst hx
      exact le_trans (ih (min a x)).1 (min_le_right a x)
    · exact (ih (min a y)).2 x hx

theorem le_blockEnd_of_mem (b : List VEvent) (m : VEvent) (hm : m ∈ b) :
    m.endTime ≤ blockEnd b := by
  cases b with
  | nil => simp at hm
  | cons x xs =>
    show m.endTime ≤ (xs.map (·.endTime)).foldl max x.endTime
    rcases List.mem_cons.1 hm with hm | hm
    · subst hm
      exact (le_foldl_max _ _).1
    · exact (le_foldl_max _ _).2 _ (List.mem_map_of_mem _ hm)

theorem blockStart_le_of_mem (b : List VEvent) (m : VEvent) (hm : m ∈ b) :
    blockStart b ≤ m.startTime := by
  cases b with
  | nil => simp at hm
  | cons x xs =>
    show (xs.map (·.startTime)).foldl min x.startTime ≤ m.startTime
    rcases List.mem_cons.1 hm with hm | hm
    · subst hm
      exact (foldl_min_le _ _).1
    · exact (foldl_min_le _ _).2 _ (List.mem_map_of_mem _ hm)

theorem blockStart_concat (c : VEvent) (cs : List VEvent) (e : VEvent) :
    blockStart ((c :: cs) ++ [e]) = min (blockStart (c :: cs)) e.startTime := by
  simp only [blockStart, List.cons_append, List.map_cons, List.map_append,
    List.map_nil, listMin, List.foldl_append, List.foldl_cons, List.foldl_nil]

theorem blockEnd_concat (c : VEvent) (cs : List VEvent) (e : VEvent) :
    blockEnd ((c :: cs) ++ [e]) = max (blockEnd (c :: cs)) e.endTime := by
  simp only [blockEnd, List.cons_append, List.map_cons, List.map_append,
    List.map_nil, listMax, List.foldl_append, List.foldl_cons, List.foldl_nil]

theorem blockStart_singleton (e : VEvent) : blockStart [e] = e.startTime := rfl

theorem blockEnd_singleton (e : VEvent) : blockEnd [e] = e.endTime := rfl

theorem blockStart_le_blockEnd (b : List VEvent) (hne : b ≠ [])
    (hwf : ∀ m ∈ b, m.startTime ≤ m.endTime) : blockStart b ≤ blockEnd b := by
  cases b with
  | nil => exact absurd rfl hne
  | cons x xs =>
    have h1 := blockStart_le_of_mem (x :: xs) x (List.mem_cons_self x xs)
    have h2 := le_blockEnd_of_mem (x :: xs) x (List.mem_cons_self x xs)
    exact le_trans h1 (le_trans (hwf x (List.mem_cons_self x xs)) h2)

/-! The accumulator-free view of the sweep and its invariants. -/

theorem mergeGo_some_eq (rest : List VEvent) :
    ∀ (cur : List VEvent) (acc : List (List VEvent)),
      mergeGo rest (some cur) acc = acc ++ mergeAux cur rest := by
  induction rest with
  | nil => intro cur acc; simp [mergeGo, mergeAux]
  | cons e rest ih =>
    intro cur acc
    show (if e.startTime < blockEnd cur then mergeGo rest (some (cur ++ [e])) acc
        else mergeGo rest (some [e]) (acc ++ [cur]))
      = acc ++ mergeAux cur (e :: rest)
    rw [show mergeAux cur (e :: rest)
        = (if e.startTime < blockEnd cur then mergeAux (cur ++ [e]) rest
           else cur :: mergeAux [e] rest) from rfl]
    split
    · exact ih _ _
    · rw [ih]
      simp

theorem mergeRun_cons (e : VEvent) (rest : List VEvent) :
    mergeRun (e :: rest) = mergeAux [e] rest := by
  show mergeGo rest (some [e]) [] = mergeAux [e] rest
  rw [mergeGo_some_eq]
  rfl

theorem mergeAux_flatten (rest : List VEvent) :
    ∀ cur, (mergeAux cur rest).flatten = cur ++ rest := by
  induction rest with
  | nil => intro cur; simp [mergeAux]
  | cons e rest ih =>
    intro cur
    rw [show mergeAux cur (e :: rest)
        = (if e.startTime < blockEnd cur then mergeAux (cur ++ [e]) rest
           else cur :: mergeAux [e] rest) from rfl]
    split
    · rw [ih]
      simp
    · rw [List.flatten_cons, ih]
      simp

theorem mergeAux_ne_nil (rest : List VEvent) :
    ∀ cur, cur ≠ [] → ∀ b ∈ mergeAux cur rest, b ≠ [] := by
  induction rest with
  | nil =>
    intro cur hne b hb
    simp [mergeAux] at hb
    subst hb
    exact hne
  | cons e rest ih =>
    intro cur hne b hb
    rw [show mergeAux cur (e :: rest)
        = (if e.startTime < blockEnd cur then mergeAux (cur ++ [e]) rest
           else cur :: mergeAux [e] rest) from rfl] at hb
    by_cases hlt : e.startTime < blockEnd cur
    · rw [if_pos hlt] at hb
      exact ih (cur ++ [e]) (by simp) b hb
    · rw [if_neg hlt] at hb
      rcases List.mem_cons.1 hb with hb | hb
      · subst hb
        exact hne
      · exact ih [e] (by simp) b hb

theorem mergeAux_blockStart_le (rest : List VEvent) :
    ∀ cur : List VEvent, cur ≠ [] →
      (∀ e ∈ rest, ∀ c ∈ cur, c.startTime ≤ e.startTime) →
      rest.Pairwise startLE →
      ∀ b ∈ mergeAux cur rest, blockStart cur ≤ blockStart b := by
  induction rest with
  | nil =>
    intro cur _ _ _ b hb
    simp [mergeAux] at hb
    subst hb
    exact le_refl _
  | cons e rest ih =>
    intro cur hne hcross hsort b hb
    obtain ⟨c, cs, rfl⟩ : ∃ c cs, cur = c :: cs := by
      cases cur with
      | nil => exact absurd rfl hne
      | cons c cs => exact ⟨c, cs, rfl⟩
    have hbs : blockStart (c :: cs) ≤ e.startTime :=
      le_trans (blockStart_le_of_mem _ c (List.mem_cons_self c cs))
        (hcross e (List.mem_cons_self e rest) c (List.mem_cons_self c cs))
    rw [show mergeAux (c :: cs) (e :: rest)
        = (if e.startTime < blockEnd (c :: cs) then mergeAux ((c :: cs) ++ [e]) rest
           else (c :: cs) :: mergeAux [e] rest) from rfl] at hb
    by_cases hlt : e.startTime < blockEnd (c :: cs)
    · rw [if_pos hlt] at hb
      have hcross2 : ∀ f ∈ rest, ∀ x ∈ (c :: cs) ++ [e], x.startTime ≤ f.startTime := by
        intro f hf x hx
        rcases List.mem_append.1 hx with hx | hx
        · exact hcross f (List.mem_cons_of_mem e hf) x hx
        · rw [List.mem_singleton.1 hx]
          exact (List.pairwise_cons.1 hsort).1 f hf
      have hb2 := ih ((c :: cs) ++ [e]) (by simp) hcross2
        (List.pairwise_cons.1 hsort).2 b hb
      refine le_trans ?_ hb2
      rw [blockStart_concat]
      exact le_min (le_refl _) hbs
    · rw [if_neg hlt] at hb
      rcases List.mem_cons.1 hb with hb | hb
      · subst hb
        exact le_refl _
      · have hb2 := ih [e] (by simp)
          (by
            intro f hf x hx
            rw [List.mem_singleton.1 hx]
            exact (List.pairwise_cons.1 hsort).1 f hf)
          (List.pairwise_cons.1 hsort).2 b hb
        rw [blockStart_singleton] at hb2
        exact le_trans hbs hb2

theorem mergeAux_pairwise (rest : List VEvent) :
    ∀ cur : List VEvent, cur ≠ [] →
      (∀ e ∈ rest, ∀ c ∈ cur, c.startTime ≤ e.startTime) →
      rest.Pairwise startLE →
      (mergeAux cur rest).Pairwise (fun b1 b2 => blockEnd b1 ≤ blockStart b2) := by
  induction rest with
  | nil =>
    intro cur _ _ _
    simp [mergeAux]
  | cons e rest ih =>
    intro cur hne hcross hsort
    rw [show mergeAux cur (e :: rest)
        = (if e.startTime < blockEnd cur then mergeAux (cur ++ [e]) rest
           else cur :: mergeAux [e] rest) from rfl]
    have hcross1 : ∀ f ∈ rest, ∀ x ∈ ([e] : List VEvent), x.startTime ≤ f.startTime := by
      intro f hf x hx
      rw [List.mem_singleton.1 hx]
      exact (List.pairwise_cons.1 hsort).1 f hf
    by_cases hlt : e.startTime < blockEnd cur
    · rw [if_pos hlt]
      obtain ⟨c, cs, rfl⟩ : ∃ c cs, cur = c :: cs := by
        cases cur with
        | nil => exact absurd rfl hne
        | cons c cs => exact ⟨c, cs, rfl⟩
      apply ih ((c :: cs) ++ [e]) (by simp)
      · intro f hf x hx
        rcases List.mem_append.1 hx with hx | hx
        · exact hcross f (List.mem_cons_of_mem e hf) x hx
        · rw [List.mem_singleton.1 hx]
          exact (List.pairwise_cons.1 hsort).1 f hf
      · exact (List.pairwise_cons.1 hsort).2
    · rw [if_neg hlt]
      rw [List.pairwise_cons]
      constructor
      · intro b hb
        have hb2 := mergeAux_blockStart_le rest [e] (by simp) hcross1
          (List.pairwise_cons.1 hsort).2 b hb
        rw [blockStart_singleton] at hb2
        exact le_trans (not_lt.1 hlt) hb2
      · exact ih [e] (by simp) hcross1 (List.pairwise_cons.1 hsort).2

theorem connBlock_singleton (e : VEvent) : connBlock [e] := by
  intro t h1 h2
  exact ⟨e, List.mem_cons_self e [], h1, h2⟩

theorem connBlock_concat (c : VEvent) (cs : List VEvent) (e : VEvent)
    (hconn : connBlock (c :: cs))
    (hlt : e.startTime < blockEnd (c :: cs))
    (hge : blockStart (c :: cs) ≤ e.startTime) :
    connBlock ((c :: cs) ++ [e]) := by
  intro t h1 h2
  rw [blockStart_concat, min_eq_left hge] at h1
  rw [blockEnd_concat] at h2
  by_cases ht : t ≤ blockEnd (c :: cs)
  · obtain ⟨m, hm, hm2⟩ := hconn t h1 ht
    exact ⟨m, List.mem_append_left _ hm, hm2⟩
  · push_neg at ht
    have hte : t ≤ e.endTime := by
      rcases le_max_iff.1 h2 with h | h
      · exact absurd h (not_le.2 ht)
      · exact h
    exact ⟨e, List.mem_append_right _ (List.mem_singleton_self e),
      le_of_lt (lt_of_lt_of_le hlt (le_of_lt ht)), hte⟩

theorem mergeAux_connected (rest : List VEvent) :
    ∀ cur : List VEvent, cur ≠ [] →
      (∀ e ∈ rest, ∀ c ∈ cur, c.startTime ≤ e.startTime) →
      rest.Pairwise startLE →
      connBlock cur →
      ∀ b ∈ mergeAux cur rest, connBlock b := by
  induction rest with
  | nil =>
    intro cur _ _ _ hconn b hb
    simp [mergeAux] at hb
    subst hb
    exact hconn
  | cons e rest ih =>
    intro cur hne hcross hsort hconn b hb
    rw [show mergeAux cur (e :: rest)
        = (if e.startTime < blockEnd cur then mergeAux (cur ++ [e]) rest
           else cur :: mergeAux [e] rest) from rfl] at hb
    have hcross1 : ∀ f ∈ rest, ∀ x ∈ ([e] : List VEvent), x.startTime ≤ f.startTime := by
      intro f hf x hx
      rw [List.mem_singleton.1 hx]
      exact (List.pairwise_cons.1 hsort).1 f hf
    by_cases hlt : e.startTime < blockEnd cur
    · rw [if_pos hlt] at hb
      obtain ⟨c, cs, rfl⟩ : ∃ c cs, cur = c :: cs := by
        cases cur with
        | nil => exact absurd rfl hne
        | cons c cs => exact ⟨c, cs, rfl⟩
      have hge : blockStart (c :: cs) ≤ e.startTime :=
        le_trans (blockStart_le_of_mem _ c (List.mem_cons_self c cs))
          (hcross e (List.mem_cons_self e rest) c (List.mem_cons_self c cs))
      apply ih ((c :: cs) ++ [e]) (by simp) ?_ (List.pairwise_cons.1 hsort).2
        (connBlock_concat c cs e hconn hlt hge) b hb
      intro f hf x hx
      rcases List.mem_append.1 hx with hx | hx
      · exact hcross f (List.mem_cons_of_mem e hf) x hx
      · rw [List.mem_singleton.1 hx]
        exact (List.pairwise_cons.1 hsort).1 f hf
    · rw [if_neg hlt] at hb
      rcases List.mem_cons.1 hb with hb | hb
      · subst hb
        exact hconn
      · exact ih [e] (by simp) hcross1 (List.pairwise_cons.1 hsort).2
          (connBlock_singleton e) b hb


/-! Laytime calculation facts. -/

theorem totalLaytime_foldl_aux (l : List VEvent) :
    ∀ acc : Int,
      l.foldl (fun acc e =>
          if (classify e.category).1 then acc + (e.endTime - e.startTime) else acc) acc
        = acc + ((l.filter (fun e => (classify e.category).1)).map
            (fun e => e.endTime - e.startTime)).sum := by
  induction l with
  | nil => intro acc; simp
  | cons e l ih =>
    intro acc
    by_cases hc : (classify e.category).1 = true
    · rw [List.foldl_cons, if_pos hc, ih]
      have hfil : (e :: l).filter (fun e => (classify e.category).1)
          = e :: l.filter (fun e => (classify e.category).1) := by
        simp [List.filter_cons, hc]
      rw [hfil, List.map_cons, List.sum_cons]
      ring
    · rw [List.foldl_cons, if_neg hc, ih]
      have hfil : (e :: l).filter (fun e => (classify e.category).1)
          = l.filter (fun e => (classify e.category).1) := by
        simp [List.filter_cons, hc]
      rw [hfil]

theorem totalLaytimeMinutes_eq (ve : List VEvent) :
    totalLaytimeMinutes ve
      = ((ve.filter (fun e => (classify e.category).1)).map
          (fun e => e.endTime - e.startTime)).sum := by
  unfold totalLaytimeMinutes
  rw [totalLaytime_foldl_aux]
  ring

theorem laytime_timeSaved (ve : List VEvent) :
    (laytimeCalculationOf ve).timeSaved
      = formatMinutesToDuration (max 0 (3 * 24 * 60 - totalLaytimeMinutes ve)) := by
  show (if 3 * 24 * 60 - totalLaytimeMinutes ve > 0
      then formatMinutesToDuration (3 * 24 * 60 - totalLaytimeMinutes ve) else "0m")
    = formatMinutesToDuration (max 0 (3 * 24 * 60 - totalLaytimeMinutes ve))
  by_cases hd : 3 * 24 * 60 - totalLaytimeMinutes ve > 0
  · rw [if_pos hd, max_eq_right (le_of_lt hd)]
  · rw [if_neg hd, max_eq_left (by omega)]
    exact (format_nonpos 0 (le_refl 0)).symm

theorem laytime_demurrage (ve : List VEvent) :
    (laytimeCalculationOf ve).demurrage
      = formatMinutesToDuration (max 0 (totalLaytimeMinutes ve - 3 * 24 * 60)) := by
  show (if 3 * 24 * 60 - totalLaytimeMinutes ve < 0
      then formatMinutesToDuration (abs (3 * 24 * 60 - totalLaytimeMinutes ve)) else "0m")
    = formatMinutesToDuration (max 0 (totalLaytimeMinutes ve - 3 * 24 * 60))
  by_cases hd : 3 * 24 * 60 - totalLaytimeMinutes ve < 0
  · rw [if_pos hd, abs_of_neg hd, neg_sub,
      max_eq_right (by omega : (0 : Int) ≤ totalLaytimeMinutes ve - 3 * 24 * 60)]
  · rw [if_neg hd, max_eq_left (by omega)]
    exact (format_nonpos 0 (le_refl 0)).symm

theorem laytime_totalLaytime (ve : List VEvent) :
    (laytimeCalculationOf ve).totalLaytime
      = formatMinutesToDuration (totalLaytimeMinutes ve) := rfl

theorem laytime_events_eq (ve : List VEvent) :
    (laytimeCalculationOf ve).laytimeEvents = ve.map mkLaytimeEvent := rfl

theorem laytime_cost_none (ve : List VEvent) :
    (laytimeCalculationOf ve).demurrageCost = none := rfl

/-! Totality facts. -/

theorem sortEvents_perm (l : List VEvent) : (sortEvents l).Perm l :=
  List.perm_insertionSort startLE l

theorem sortEvents_sorted (l : List VEvent) : (sortEvents l).Pairwise startLE :=
  List.sorted_insertionSort startLE l

theorem sortEvents_ne_nil (l : List VEvent) (h : l ≠ []) : sortEvents l ≠ [] := by
  intro hs
  apply h
  have hlen := (sortEvents_perm l).length_eq
  rw [hs] at hlen
  exact List.length_eq_zero.1 hlen.symm

theorem validEvents_mem (es : List RawEvent) (v : VEvent) (hv : v ∈ validEvents es) :
    ∃ e ∈ es, e.startTime = some v.startTime ∧ e.endTime = some v.endTime := by
  unfold validEvents at hv
  rw [List.mem_filterMap] at hv
  obtain ⟨e, he, hm⟩ := hv
  refine ⟨e, he, ?_⟩
  cases hst : e.startTime with
  | none =>
    rw [hst] at hm
    cases e.endTime <;> simp at hm
  | some s =>
    cases het : e.endTime with
    | none =>
      rw [hst, het] at hm
      simp at hm
    | some t =>
      rw [hst, het] at hm
      simp only [Option.some.injEq] at hm
      subst hm
      exact ⟨rfl, rfl⟩

theorem timelineBlocksOf_ok (blocks : List (List VEvent))
    (h : ∀ b ∈ blocks, b ≠ []) :
    ∃ r, timelineBlocksOf blocks = Except.ok r := by
  induction blocks with
  | nil => exact ⟨[], rfl⟩
  | cons b bs ih =>
    obtain ⟨r, hr⟩ := ih (fun x hx => h x (List.mem_cons_of_mem b hx))
    obtain ⟨m, rest, rfl⟩ : ∃ m rest, b = m :: rest := by
      cases b with
      | nil => exact absurd rfl (h [] (List.mem_cons_self _ _))
      | cons m rest => exact ⟨m, rest, rfl⟩
    obtain ⟨t, ht⟩ : ∃ t, postProcessBlock (m :: rest) = Except.ok t := ⟨_, rfl⟩
    refine ⟨t :: r, ?_⟩
    show (postProcessBlock (m :: rest)).bind
        (fun t => (timelineBlocksOf bs).bind fun ts => Except.ok (t :: ts))
      = Except.ok (t :: r)
    rw [ht, hr]
    rfl

theorem eventsSummaryOf_ok (sorted : List VEvent) (l : List LaytimeEvent)
    (v : List VEvent) (hne : sorted ≠ []) :
    ∃ r, eventsSummaryOf sorted l v = Except.ok r := by
  cases hl : sorted.getLast? with
  | none => exact absurd (List.getLast?_eq_none_iff.1 hl) hne
  | some lastEv =>
    cases hh : sorted.head? with
    | none => exact absurd (List.head?_eq_none_iff.1 hh) hne
    | some firstEv =>
      unfold eventsSummaryOf
      rw [hl, hh]
      exact ⟨_, rfl⟩

theorem enrichedData_total (es : List RawEvent) :
    ∃ r, enrichedData es = Except.ok r := by
  unfold enrichedData
  by_cases h0 : es.length = 0
  · rw [if_pos h0]
    exact ⟨none, rfl⟩
  · rw [if_neg h0]
    by_cases h1 : (validEvents es).length = 0
    · rw [if_pos h1]
      exact ⟨none, rfl⟩
    · rw [if_neg h1]
      have hvne : validEvents es ≠ [] := fun hx => h1 (by rw [hx]; rfl)
      have hsne : sortEvents (validEvents es) ≠ [] := sortEvents_ne_nil _ hvne
      obtain ⟨f, fs, hf⟩ : ∃ f fs, sortEvents (validEvents es) = f :: fs := by
        cases hx : sortEvents (validEvents es) with
        | nil => exact absurd hx hsne
        | cons f fs => exact ⟨f, fs, rfl⟩
      have hblocks : ∀ b ∈ mergeRun (sortEvents (validEvents es)), b ≠ [] := by
        rw [hf, mergeRun_cons]
        exact mergeAux_ne_nil fs [f] (by simp)
      obtain ⟨tB, htB⟩ := timelineBlocksOf_ok _ hblocks
      obtain ⟨sm, hsm⟩ := eventsSummaryOf_ok (sortEvents (validEvents es))
        (laytimeCalculationOf (validEvents es)).laytimeEvents (validEvents es) hsne
      refine ⟨some (EnrichedData.mk tB (laytimeCalculationOf (validEvents es)) sm), ?_⟩
      show (timelineBlocksOf (mergeRun (sortEvents (validEvents es)))).bind
          (fun tBlocks => (eventsSummaryOf (sortEvents (validEvents es))
              (laytimeCalculationOf (validEvents es)).laytimeEvents
              (validEvents es)).bind
            fun summary => Except.ok (some (EnrichedData.mk tBlocks
              (laytimeCalculationOf (validEvents es)) summary)))
        = Except.ok (some (EnrichedData.mk tB (laytimeCalculationOf (validEvents es)) sm))
      rw [htB, hsm]
      rfl


/-! Claim theorems. -/

/-- C1 (counterexample): the claim says an event with a start but no end is
kept and given an inferred end; on the input `[rawNoEnd, rawComplete]` the
pipeline instead drops `rawNoEnd` (which has `startTime = some 0` and no
end): only `"Berthing"` survives the filter. -/
theorem claim_C1_cex :
    (validEvents [rawNoEnd, rawComplete]).map (fun v => v.event) = ["Berthing"]
    ∧ rawNoEnd.startTime = some 0 ∧ rawNoEnd.endTime = none :=
  ⟨by decide, rfl, rfl⟩

/-- C1 (amended): an input event that is missing its end is silently dropped
by the pipeline, exactly like an event missing its start; no end inference
is performed: deleting such an event from the input leaves the valid-event
sequence unchanged. -/
theorem claim_C1 (es1 es2 : List RawEvent) (e : RawEvent) (hend : e.endTime = none) :
    validEvents (es1 ++ e :: es2) = validEvents (es1 ++ es2) := by
  unfold validEvents
  rw [List.filterMap_append, List.filterMap_append, List.filterMap_cons]
  have hfe : (match e.startTime, e.endTime with
      | some s, some t =>
        some (⟨e.event, e.category, s, t, e.duration, e.status⟩ : VEvent)
      | _, _ => none) = none := by
    rw [hend]
    cases e.startTime <;> rfl
  rw [hfe]

/-- C1 witness: the amended claim applied to the concrete end-less event. -/
theorem claim_C1_witness :
    rawNoEnd.endTime = none
    ∧ validEvents ([] ++ rawNoEnd :: [rawComplete]) = validEvents ([] ++ [rawComplete]) :=
  ⟨rfl, claim_C1 [] [rawComplete] rawNoEnd rfl⟩

/-- C2: in the sweep, an event joins the current (non-empty) block exactly
when its start is strictly before the running maximum end of the block, in
which case the block end extends to the maximum of the old end and the new
event end, and otherwise the block is closed and a new one opened; on the
two events 09:00 to 11:00 and 10:00 to 12:00 the pipeline emits one block
with both members spanning 540 to 720 minutes (09:00 to 12:00). -/
theorem claim_C2 :
    (∀ (e : VEvent) (rest : List VEvent) (c : VEvent) (cs : List VEvent)
        (acc : List (List VEvent)),
        mergeGo (e :: rest) (some (c :: cs)) acc
          = if e.startTime < blockEnd (c :: cs)
            then mergeGo rest (some ((c :: cs) ++ [e])) acc
            else mergeGo rest (some [e]) (acc ++ [c :: cs]))
    ∧ (∀ (c : VEvent) (cs : List VEvent) (e : VEvent),
        blockEnd ((c :: cs) ++ [e]) = max (blockEnd (c :: cs)) e.endTime)
    ∧ mergedBlocks [ev0900to1100, ev1000to1200] = [[ev0900to1100, ev1000to1200]]
    ∧ blockStart [ev0900to1100, ev1000to1200] = 540
    ∧ blockEnd [ev0900to1100, ev1000to1200] = 720 :=
  ⟨fun _ _ _ _ _ => rfl, blockEnd_concat, by decide, by decide, by decide⟩

/-- C3: on a normalized input (sorted by start, every end at or after its
start) the sweep emits blocks that are pairwise disjoint up to shared
boundary instants (every earlier block ends no later than every later block
starts), in non-decreasing block-start order, and the union of the block
spans is exactly the union of the event spans. -/
theorem claim_C3 (es : List VEvent)
    (hsorted : es.Pairwise startLE)
    (hwf : ∀ e ∈ es, e.startTime ≤ e.endTime) :
    (mergeRun es).Pairwise (fun b1 b2 => blockEnd b1 ≤ blockStart b2)
    ∧ (mergeRun es).Pairwise (fun b1 b2 => blockStart b1 ≤ blockStart b2)
    ∧ ∀ t : Int,
        (∃ b ∈ mergeRun es, blockStart b ≤ t ∧ t ≤ blockEnd b)
        ↔ ∃ e ∈ es, e.startTime ≤ t ∧ t ≤ e.endTime := by
  cases es with
  | nil =>
    refine ⟨by simp [mergeRun, mergeGo], by simp [mergeRun, mergeGo], ?_⟩
    intro t
    simp [mergeRun, mergeGo]
  | cons f fs =>
    rw [mergeRun_cons]
    have hcross1 : ∀ e ∈ fs, ∀ c ∈ ([f] : List VEvent), c.startTime ≤ e.startTime := by
      intro e he c hcm
      rw [List.mem_singleton.1 hcm]
      exact (List.pairwise_cons.1 hsorted).1 e he
    have hsort1 := (List.pairwise_cons.1 hsorted).2
    have hP := mergeAux_pairwise fs [f] (by simp) hcross1 hsort1
    have hmem_wf : ∀ b ∈ mergeAux [f] fs, ∀ m ∈ b, m.startTime ≤ m.endTime := by
      intro b hb m hm
      apply hwf
      have hmm : m ∈ (mergeAux [f] fs).flatten := List.mem_flatten.2 ⟨b, hb, hm⟩
      rw [mergeAux_flatten] at hmm
      exact hmm
    have hne := mergeAux_ne_nil fs [f] (by simp)
    refine ⟨hP, ?_, ?_⟩
    · exact List.Pairwise.imp_of_mem
        (fun hb1 hb2 hq =>
          le_trans (blockStart_le_blockEnd _ (hne _ hb1) (hmem_wf _ hb1)) hq) hP
    · intro t
      constructor
      · rintro ⟨b, hb, h1, h2⟩
        have hconn := mergeAux_connected fs [f] (by simp) hcross1 hsort1
          (connBlock_singleton f) b hb
        obtain ⟨m, hm, hm2⟩ := hconn t h1 h2
        have hmm : m ∈ (mergeAux [f] fs).flatten := List.mem_flatten.2 ⟨b, hb, hm⟩
        rw [mergeAux_flatten] at hmm
        exact ⟨m, hmm, hm2⟩
      · rintro ⟨e, he, h1, h2⟩
        have hee : e ∈ ([f] ++ fs : List VEvent) := he
        rw [← mergeAux_flatten fs [f]] at hee
        obtain ⟨b, hb, hmb⟩ := List.mem_flatten.1 hee
        exact ⟨b, hb, le_trans (blockStart_le_of_mem b e hmb) h1,
          le_trans h2 (le_blockEnd_of_mem b e hmb)⟩

/-- C3 witness: the invariants at the concrete sorted two-event input. -/
theorem claim_C3_witness :
    (([ev0900to1100, ev1000to1200] : List VEvent).Pairwise startLE
      ∧ ∀ e ∈ ([ev0900to1100, ev1000to1200] : List VEvent),
          e.startTime ≤ e.endTime)
    ∧ ((mergeRun [ev0900to1100, ev1000to1200]).Pairwise
          (fun b1 b2 => blockEnd b1 ≤ blockStart b2)
        ∧ (mergeRun [ev0900to1100, ev1000to1200]).Pairwise
          (fun b1 b2 => blockStart b1 ≤ blockStart b2)
        ∧ ∀ t : Int,
            (∃ b ∈ mergeRun [ev0900to1100, ev1000to1200],
              blockStart b ≤ t ∧ t ≤ blockEnd b)
            ↔ ∃ e ∈ ([ev0900to1100, ev1000to1200] : List VEvent),
                e.startTime ≤ t ∧ t ≤ e.endTime) :=
  ⟨⟨by decide, by decide⟩, claim_C3 _ (by decide) (by decide)⟩

/-- C4 (counterexample): the claim says a Delays event gets the reason
string "Delays and stoppages do not count towards laytime."; the pipeline
actually produces "Delays and stoppages generally do not count." -/
theorem claim_C4_cex :
    (laytimeCalculationOf [evDelay]).laytimeEvents.map (fun le => le.reason)
        = ["Delays and stoppages generally do not count."]
    ∧ "Delays and stoppages generally do not count."
        ≠ "Delays and stoppages do not count towards laytime." :=
  ⟨rfl, by decide⟩

/-- C4 (amended): the allocator classifies each event deterministically by
category: Cargo Operations events are counted with reason "Cargo operations
count towards laytime."; Delays and Stoppages events are not counted with
reason "Delays and stoppages generally do not count."; every other category
is not counted with reason "Not counted towards laytime." -/
theorem claim_C4 (ve : List VEvent) :
    (laytimeCalculationOf ve).laytimeEvents.map (fun le => (le.isCounted, le.reason))
      = ve.map (fun e =>
          if e.category = "Cargo Operations" then
            (true, "Cargo operations count towards laytime.")
          else if e.category = "Delays" ∨ e.category = "Stoppages" then
            (false, "Delays and stoppages generally do not count.")
          else (false, "Not counted towards laytime.")) := by
  rw [laytime_events_eq, List.map_map]
  apply List.map_congr_left
  intro e _
  rfl

/-- C5: the laytime summary renders time saved as the formatted value of
max(0, allowed minus counted) and demurrage as the formatted value of
max(0, counted minus allowed) against the fixed 4320 minute allowance; the
counted total is the plain sum of the durations of counted events with no
overlap de-duplication; the two clamped quantities are never both positive. -/
theorem claim_C5 (ve : List VEvent) :
    (laytimeCalculationOf ve).timeSaved
        = formatMinutesToDuration (max 0 (4320 - totalLaytimeMinutes ve))
    ∧ (laytimeCalculationOf ve).demurrage
        = formatMinutesToDuration (max 0 (totalLaytimeMinutes ve - 4320))
    ∧ totalLaytimeMinutes ve
        = ((ve.filter (fun e => (classify e.category).1)).map
            (fun e => e.endTime - e.startTime)).sum
    ∧ ¬(0 < max 0 (4320 - totalLaytimeMinutes ve)
        ∧ 0 < max 0 (totalLaytimeMinutes ve - 4320)) := by
  refine ⟨?_, ?_, totalLaytimeMinutes_eq ve, ?_⟩
  · rw [laytime_timeSaved]
    norm_num
  · rw [laytime_demurrage]
    norm_num
  · rintro ⟨h1, h2⟩
    rcases lt_max_iff.1 h1 with h | h
    · exact absurd h (lt_irrefl 0)
    · rcases lt_max_iff.1 h2 with h3 | h3
      · exact absurd h3 (lt_irrefl 0)
      · omega

/-- C5 witness: the summary formulas at the concrete one-event input. -/
theorem claim_C5_witness :
    (laytimeCalculationOf [evDelay]).timeSaved
        = formatMinutesToDuration (max 0 (4320 - totalLaytimeMinutes [evDelay]))
    ∧ (laytimeCalculationOf [evDelay]).demurrage
        = formatMinutesToDuration (max 0 (totalLaytimeMinutes [evDelay] - 4320))
    ∧ totalLaytimeMinutes [evDelay]
        = (([evDelay].filter (fun e => (classify e.category).1)).map
            (fun e => e.endTime - e.startTime)).sum
    ∧ ¬(0 < max 0 (4320 - totalLaytimeMinutes [evDelay])
        ∧ 0 < max 0 (totalLaytimeMinutes [evDelay] - 4320)) :=
  claim_C5 [evDelay]

/-- C6 (counterexample): at four counted days against the three-day
allowance the overrun is positive, yet the summary contains no cost field
and the overrun renders as "1d", not "1d 0h 0m"; the claimed
present-iff-positive `overrunCost` behaviour does not hold. -/
theorem claim_C6_cex :
    (laytimeCalculationOf [evFourDays]).demurrageCost = none
    ∧ (laytimeCalculationOf [evFourDays]).demurrage = "1d"
    ∧ 0 < totalLaytimeMinutes [evFourDays] - 4320 :=
  ⟨rfl, by decide, by decide⟩

/-- C6 (amended): the laytime summary never contains a demurrage cost: the
pipeline always constructs the summary without the optional `demurrageCost`
field, regardless of the size of the overrun. -/
theorem claim_C6 (ve : List VEvent) :
    (laytimeCalculationOf ve).demurrageCost = none := rfl

/-- C7 (counterexample): an event whose end precedes its start passes
normalization unchanged: the sorted valid sequence for `rawInverted` still
violates end at or after start, and its negative duration of minus 60
minutes is added to the counted total instead of being clamped. -/
theorem claim_C7_cex :
    ((sortEvents (validEvents [rawInverted])).all
        fun e => decide (e.startTime ≤ e.endTime)) = false
    ∧ totalLaytimeMinutes (validEvents [rawInverted]) = -60 :=
  ⟨by decide, by decide⟩

/-- C7 (amended): normalization never rewrites timestamps: every event in
the sorted valid sequence carries exactly the start and end instants it had
in the input, so an inverted event is kept inverted rather than clamped. -/
theorem claim_C7 (es : List RawEvent) (v : VEvent)
    (hv : v ∈ sortEvents (validEvents es)) :
    ∃ e ∈ es, e.startTime = some v.startTime ∧ e.endTime = some v.endTime :=
  validEvents_mem es v ((sortEvents_perm (validEvents es)).mem_iff.1 hv)

/-- C7 witness: the amended claim applied to the inverted event. -/
theorem claim_C7_witness :
    ((⟨"Inverted", "Cargo Operations", 100, 40, "", "Completed"⟩ : VEvent)
        ∈ sortEvents (validEvents [rawInverted]))
    ∧ ∃ e ∈ [rawInverted], e.startTime = some (100 : Int)
        ∧ e.endTime = some (40 : Int) :=
  ⟨by decide, claim_C7 [rawInverted]
    ⟨"Inverted", "Cargo Operations", 100, 40, "", "Completed"⟩ (by decide)⟩

/-- C8: the duration formatter agrees on every signed minute count with the
spec-level description (days, hours, minutes with zero-valued units omitted,
at least one unit shown, non-positive spans as "0m"); in particular 0
renders as "0m" and 240 renders as "4h". -/
theorem claim_C8 :
    (∀ m : Int, formatMinutesToDuration m = specFormatDuration m)
    ∧ formatMinutesToDuration 0 = "0m"
    ∧ formatMinutesToDuration 240 = "4h" :=
  ⟨format_eq_spec, by decide, by decide⟩

/-- C9: the pipeline is total: on every well-typed input event list it
returns a value and never an error (the modelled JS exceptions are
unreachable), and the empty input flows through as the empty result of
every stage rather than an error. -/
theorem claim_C9 :
    (∀ es : List RawEvent, ∃ r, enrichedData es = Except.ok r)
    ∧ enrichedData [] = Except.ok none
    ∧ validEvents [] = []
    ∧ mergeRun [] = []
    ∧ (laytimeCalculationOf []).laytimeEvents = [] :=
  ⟨enrichedData_total, rfl, rfl, rfl, rfl⟩

/-- C10: the formatter renders every non-positive minute count as "0m", its
output never contains a minus sign, and consequently none of the duration
strings of the laytime summary (per-event durations, time saved, demurrage,
counted total) ever displays a negative quantity. -/
theorem claim_C10 :
    (∀ m : Int, m ≤ 0 → formatMinutesToDuration m = "0m")
    ∧ (∀ m : Int, '-' ∉ (formatMinutesToDuration m).data)
    ∧ ∀ ve : List VEvent,
        (∀ le ∈ (laytimeCalculationOf ve).laytimeEvents, '-' ∉ le.duration.data)
        ∧ '-' ∉ (laytimeCalculationOf ve).timeSaved.data
        ∧ '-' ∉ (laytimeCalculationOf ve).demurrage.data
        ∧ '-' ∉ (laytimeCalculationOf ve).totalLaytime.data := by
  refine ⟨format_nonpos, format_no_dash, ?_⟩
  intro ve
  refine ⟨?_, ?_, ?_, ?_⟩
  · intro le hle
    rw [laytime_events_eq] at hle
    obtain ⟨e, he, rfl⟩ := List.mem_map.1 hle
    exact format_no_dash _
  · rw [laytime_timeSaved]
    exact format_no_dash _
  · rw [laytime_demurrage]
    exact format_no_dash _
  · rw [laytime_totalLaytime]
    exact format_no_dash _

/-- C10 witness: the formatter at the concrete negative count minus five. -/
theorem claim_C10_witness :
    (-5 : Int) ≤ 0 ∧ formatMinutesToDuration (-5) = "0m" :=
  ⟨by decide, claim_C10.1 (-5) (by decide)⟩


end SOFA
